import Mathlib

/-!
Verification of the `refiners` diffusion scheduler
(`src/refiners/foundationals/latent_diffusion/schedulers/scheduler.py` and
`dpm_solver.py`), as a shallow embedding.

Tensors are modelled as lists of real numbers (elementwise semantics), and
machine floating point is replaced by exact arithmetic:

* the timestep computation `np.linspace(0, T-1, N+1).round().astype(int)` is
  carried out exactly — the `i`-th linspace point is the fraction
  `i * (T - 1) / N`, and `round` is numpy's documented round-half-to-even.
  (numpy evaluates the points in binary float64, so at an exact halfway point
  such as `499.5` — the case the source comments on — the float result can
  fall on either side; no claim settled here depends on a halfway entry.)
* the schedule arrays (`scale_factors`, `cumulative_scale_factors`,
  `noise_std`, `signal_to_noise_ratios`) are real-valued functions of the
  train-timestep index.

Python exceptions are modelled with `Option`: `none` stands for a raised
error.
-/

namespace Refiners

/-- numpy `round` (round half to even) applied to the exact fraction
`a / b`, for `b > 0`.  `Int./` is Euclidean division, i.e. floor division
for a positive divisor, so `a / b` is the floor and `a % b ∈ [0, b)` the
remainder; the fractional part `r / b` is compared with `1/2` via `2*r ≟ b`. -/
def roundHalfEvenFrac (a b : ℤ) : ℤ :=
  let q := a / b
  let r := a % b
  if 2 * r < b then q
  else if b < 2 * r then q + 1
  else if q % 2 = 0 then q else q + 1

/-- The `i`-th entry of `np.linspace(0, T - 1, N + 1).round().astype(int)`:
for `N ≥ 1` the points are `i * (T - 1) / N` (numpy includes the endpoint, so
the spacing is `(stop - start) / (num - 1)`); `np.linspace(0, T - 1, 1)` is
the single point `[0.0]`. -/
def linspaceRoundAt (T N : ℕ) (i : ℕ) : ℤ :=
  if N = 0 then 0
  else roundHalfEvenFrac ((i : ℤ) * ((T : ℤ) - 1)) (N : ℤ)

/-- Embeds `DPMSolver._generate_timesteps`:
`np.linspace(0, self.num_train_timesteps - 1, self.num_inference_steps + 1)
.round().astype(int)[1:]` followed by `.flip(0)`.
`T = num_train_timesteps`, `N = num_inference_steps`. -/
def generateTimesteps (T N : ℕ) : List ℤ :=
  (((List.range (N + 1)).map (linspaceRoundAt T N)).drop 1).reverse

/-- Reads `self.timesteps[s]` for an in-range step index `s` (out of range the
model returns `0`; every theorem using this supplies an in-range index,
where the tensor access does not raise). -/
def timestepAt (T N : ℕ) (s : ℕ) : ℤ :=
  (generateTimesteps T N).getD s 0

/-- Returns `true` iff consecutive entries of the list strictly decrease. -/
def strictlyDescending : List ℤ → Bool
  | [] => true
  | [_] => true
  | x :: y :: rest => decide (y < x) && strictlyDescending (y :: rest)

/-! ### Python / torch integer indexing

A 1-D torch tensor indexed by a Python `int` follows sequence semantics:
indices in `[0, len)` select directly, indices in `[-len, 0)` select from the
end, anything else raises `IndexError` (modelled as `none`). -/

/-- Python sequence indexing with wraparound for negative indices. -/
def pyIndex (l : List ℤ) (i : ℤ) : Option ℤ :=
  if 0 ≤ i ∧ i < (l.length : ℤ) then some (l.getD i.toNat 0)
  else if -(l.length : ℤ) ≤ i ∧ i < 0 then some (l.getD ((l.length : ℤ) + i).toNat 0)
  else none

/-- Reads `self.timesteps[i]` as a total function (`0` out of range, where the
tensor access would raise; theorems only use it with in-range indices). -/
def tsGet (T N : ℕ) (i : ℤ) : ℤ :=
  (pyIndex (generateTimesteps T N) i).getD 0

/-! ### Schedule arrays (`Scheduler.__init__`)

The arrays built by the constructor, as real-valued functions of the
train-timestep index `t ∈ [0, T)`.  `b0 = initial_diffusion_rate`,
`b1 = final_diffusion_rate`; Python's `rate ** 0.5` is `Real.sqrt` (both
rates are nonnegative wherever these functions are used). -/

/-- Embeds `torch.linspace(initial_diffusion_rate**0.5, final_diffusion_rate**0.5,
num_train_timesteps)` at index `t`: for `T ≥ 2` the spacing is
`(end - start) / (T - 1)`; `torch.linspace(a, b, 1) = [a]`. -/
noncomputable def betaLin (b0 b1 : ℝ) (T t : ℕ) : ℝ :=
  if T ≤ 1 then Real.sqrt b0
  else Real.sqrt b0 + t * (Real.sqrt b1 - Real.sqrt b0) / ((T : ℝ) - 1)

/-- Embeds `self.scale_factors = 1.0 - linspace(...) ** 2`. -/
noncomputable def scaleFactors (b0 b1 : ℝ) (T t : ℕ) : ℝ :=
  1 - betaLin b0 b1 T t ^ 2

/-- Embeds `self.scale_factors.cumprod(dim=0)` at index `t`. -/
noncomputable def scaleProd (b0 b1 : ℝ) (T t : ℕ) : ℝ :=
  ∏ i ∈ Finset.range (t + 1), scaleFactors b0 b1 T i

/-- Embeds `self.cumulative_scale_factors = sqrt(self.scale_factors.cumprod(dim=0))`. -/
noncomputable def cumulativeScaleFactors (b0 b1 : ℝ) (T t : ℕ) : ℝ :=
  Real.sqrt (scaleProd b0 b1 T t)

/-- Embeds `self.noise_std = sqrt(1.0 - self.scale_factors.cumprod(dim=0))`. -/
noncomputable def noiseStd (b0 b1 : ℝ) (T t : ℕ) : ℝ :=
  Real.sqrt (1 - scaleProd b0 b1 T t)

/-- Embeds `self.signal_to_noise_ratios = log(cumulative_scale_factors) - log(noise_std)`. -/
noncomputable def signalToNoiseRatios (b0 b1 : ℝ) (T t : ℕ) : ℝ :=
  Real.log (cumulativeScaleFactors b0 b1 T t) - Real.log (noiseStd b0 b1 T t)

/-! ### Elementwise tensor arithmetic -/

/-- Broadcast multiplication of a tensor by a scalar. -/
def vscale (a : ℝ) (v : List ℝ) : List ℝ := v.map (fun x => a * x)

/-- Elementwise subtraction of same-shape tensors. -/
def vsub (v w : List ℝ) : List ℝ := List.zipWith (fun x y => x - y) v w

/-- Broadcast division of a tensor by a scalar. -/
noncomputable def vdivs (v : List ℝ) (a : ℝ) : List ℝ := v.map (fun x => x / a)

/-! ### `Scheduler.add_noise` -/

/-- Embeds `Scheduler.add_noise(x, noise, step)`:
`timestep = self.timesteps[step]` (raising = `none`), then
`cumulative_scale_factors[timestep] * x + noise_std[timestep] * noise`, the
two scalar coefficients broadcast over all elements. -/
noncomputable def addNoise (b0 b1 : ℝ) (T N : ℕ) (x noise : List ℝ) (step : ℤ) :
    Option (List ℝ) :=
  (pyIndex (generateTimesteps T N) step).map (fun t =>
    List.zipWith
      (fun a b =>
        cumulativeScaleFactors b0 b1 T t.toNat * a + noiseStd b0 b1 T t.toNat * b)
      x noise)

/-! ### `DPMSolver` state

`self.estimated_data = deque([tensor([])] * 2, maxlen=2)` — a two-place
history of data estimates, pre-filled with two empty placeholder tensors
(the empty tensor is modelled as `[]`) — and `self.initial_steps = 0`. -/

structure DPMState where
  estimatedData : List (List ℝ)
  initialSteps : ℕ

/-- The state set up by `DPMSolver.__init__`. -/
def freshDPM : DPMState := ⟨[[], []], 0⟩

/-- Embeds `deque.append` with `maxlen=2`: the new element goes to the right and,
when the deque is full, the leftmost element is evicted. -/
def dequeAppend (d : List (List ℝ)) (v : List ℝ) : List (List ℝ) :=
  let d2 := d ++ [v]
  d2.drop (d2.length - 2)

/-- Reads `self.estimated_data[-1]`. -/
def dequeLast (d : List (List ℝ)) : List ℝ := d.getD (d.length - 1) []

/-- Reads `self.estimated_data[-2]`. -/
def dequePenultimate (d : List (List ℝ)) : List ℝ := d.getD (d.length - 2) []

/-! ### The two update formulas -/

/-- Embeds `DPMSolver.dpm_solver_first_order_update(x, noise, step)`.
`previous_timestep = timesteps[step + 1 if step < len(timesteps) - 1 else 0]`;
the result is
`(noise_std[prev] / noise_std[cur]) * x
 - cumulative_scale_factors[prev] * (exp(-(snr[prev] - snr[cur])) - 1) * noise`. -/
noncomputable def dpmSolverFirstOrderUpdate (b0 b1 : ℝ) (T N : ℕ)
    (x noise : List ℝ) (step : ℤ) : List ℝ :=
  let len : ℤ := (generateTimesteps T N).length
  let t := tsGet T N step
  let prevT := tsGet T N (if step < len - 1 then step + 1 else 0)
  let prevSnr := signalToNoiseRatios b0 b1 T prevT.toNat
  let curSnr := signalToNoiseRatios b0 b1 T t.toNat
  let prevScale := cumulativeScaleFactors b0 b1 T prevT.toNat
  let prevStd := noiseStd b0 b1 T prevT.toNat
  let curStd := noiseStd b0 b1 T t.toNat
  let expFactor := Real.exp (-(prevSnr - curSnr))
  vsub (vscale (prevStd / curStd) x) (vscale (prevScale * (expFactor - 1)) noise)

/-- The `previous_timestep` of the second-order update (line 61 of
`dpm_solver.py`): `self.timesteps[step + 1] if step < len(self.timesteps) - 1
else tensor([0])` — note the `else` branch is the literal timestep value `0`,
not an index into `timesteps`. -/
def secondOrderPrevTimestep (T N : ℕ) (step : ℤ) : ℤ :=
  if step < ((generateTimesteps T N).length : ℤ) - 1 then tsGet T N (step + 1) else 0

/-- Embeds `DPMSolver.multistep_dpm_solver_second_order_update(x, step)`.
`next_timestep = timesteps[step - 1]` (raising = `none`; for `step = 0`
this wraps to the last entry), estimates are read from the deque at `[-1]`
and `[-2]`, and the result is
`(noise_std[prev]/noise_std[cur]) * x
 - csf[prev]*(exp(-(snr[prev]-snr[cur])) - 1) * est[-1]
 - 0.5 * csf[prev]*(exp(-(snr[prev]-snr[cur])) - 1) * delta` with
`delta = (est[-1] - est[-2]) / ((snr[cur]-snr[next]) / (snr[prev]-snr[cur]))`. -/
noncomputable def multistepDpmSolverSecondOrderUpdate (b0 b1 : ℝ) (T N : ℕ)
    (estData : List (List ℝ)) (x : List ℝ) (step : ℤ) : Option (List ℝ) :=
  (pyIndex (generateTimesteps T N) (step - 1)).map (fun nextT =>
    let prevT := secondOrderPrevTimestep T N step
    let curT := tsGet T N step
    let currentEst := dequeLast estData
    let nextEst := dequePenultimate estData
    let prevSnr := signalToNoiseRatios b0 b1 T prevT.toNat
    let curSnr := signalToNoiseRatios b0 b1 T curT.toNat
    let nextSnr := signalToNoiseRatios b0 b1 T nextT.toNat
    let prevScale := cumulativeScaleFactors b0 b1 T prevT.toNat
    let prevStd := noiseStd b0 b1 T prevT.toNat
    let curStd := noiseStd b0 b1 T curT.toNat
    let estDelta := vdivs (vsub currentEst nextEst) ((curSnr - nextSnr) / (prevSnr - curSnr))
    let expNeg := Real.exp (-(prevSnr - curSnr))
    vsub
      (vsub (vscale (prevStd / curStd) x) (vscale (prevScale * (expNeg - 1)) currentEst))
      (vscale (0.5 * (prevScale * (expNeg - 1))) estDelta))

/-- Embeds `DPMSolver.__call__(x, noise, step)`: read `timesteps[step]` (raising =
`none`), form the data estimate `(x - noise_std[t] * noise) /
cumulative_scale_factors[t]`, append it to the history deque, then apply the
first-order update if `initial_steps == 0` and the second-order multistep
update otherwise; finally bump `initial_steps`, saturating at 2.  (When the
second-order update raises, Python leaves the already-appended deque behind;
the `none` result of the model drops that state, which no theorem relies
on.) -/
noncomputable def dpmSolverCall (b0 b1 : ℝ) (T N : ℕ) (st : DPMState)
    (x noise : List ℝ) (step : ℤ) : Option (List ℝ × DPMState) :=
  (pyIndex (generateTimesteps T N) step).bind (fun t =>
    let scale := cumulativeScaleFactors b0 b1 T t.toNat
    let nstd := noiseStd b0 b1 T t.toNat
    let est := vdivs (vsub x (vscale nstd noise)) scale
    let d2 := dequeAppend st.estimatedData est
    let bumped := if st.initialSteps < 2 then st.initialSteps + 1 else st.initialSteps
    if st.initialSteps = 0 then
      some (dpmSolverFirstOrderUpdate b0 b1 T N x est step, ⟨d2, bumped⟩)
    else
      (multistepDpmSolverSecondOrderUpdate b0 b1 T N d2 x step).map
        (fun out => (out, ⟨d2, bumped⟩)))

/-- The data estimate formed at the start of `DPMSolver.__call__`. -/
noncomputable def dataEstimate (b0 b1 : ℝ) (T N : ℕ) (x noise : List ℝ) (step : ℤ) :
    List ℝ :=
  let t := tsGet T N step
  vdivs (vsub x (vscale (noiseStd b0 b1 T t.toNat) noise))
    (cumulativeScaleFactors b0 b1 T t.toNat)

/-- One call of the iteration: input tensor, noise tensor, step index. -/
structure SolverCall where
  x : List ℝ
  noise : List ℝ
  step : ℤ

/-- Fold a sequence of `__call__` invocations over the solver state,
keeping only the state (results are examined per call).  A call whose
index raises leaves the state unchanged (no theorem exercises that case). -/
noncomputable def runCalls (b0 b1 : ℝ) (T N : ℕ) (st : DPMState) :
    List SolverCall → DPMState
  | [] => st
  | c :: rest =>
    runCalls b0 b1 T N
      (match dpmSolverCall b0 b1 T N st c.x c.noise c.step with
       | some r => r.2
       | none => st) rest

/-! ### `Scheduler.to` -/

/-- Torch dtypes (only the tags matter to the model). -/
inductive DType
  | float32
  | float16
  | bfloat16
  deriving DecidableEq, Repr

/-- The mutable tensor attributes of a `Scheduler`, with the stored numeric
values of the four schedule arrays. -/
structure SchedulerTensors where
  device : String
  dtype : DType
  timesteps : List ℤ
  scaleFactors : List ℝ
  cumulativeScaleFactors : List ℝ
  noiseStd : List ℝ
  signalToNoiseRatios : List ℝ

/-- Embeds `Scheduler.to(device=dev, dtype=dt)`.  `conv dt` is the elementwise
value conversion performed by `tensor.to(dtype=dt)` (rounding each stored
value to the nearest representable value of `dt`); it is a parameter, since
floating-point formats are not modelled.  `tensor.to(device)` never changes
values, and `timesteps` (an integer tensor) is only moved, never converted:
the code touches it solely under `if device is not None`, with
`self.timesteps.to(device)`.  The four float arrays are converted from their
stored values; nothing is recomputed from the constructor hyperparameters. -/
def schedulerTo (conv : DType → ℝ → ℝ) (st : SchedulerTensors)
    (dev : Option String) (dt : Option DType) : SchedulerTensors :=
  let cv : ℝ → ℝ := match dt with
    | some d => conv d
    | none => id
  { device := match dev with
      | some d => d
      | none => st.device
    dtype := match dt with
      | some d => d
      | none => st.dtype
    timesteps := st.timesteps
    scaleFactors := st.scaleFactors.map cv
    cumulativeScaleFactors := st.cumulativeScaleFactors.map cv
    noiseStd := st.noiseStd.map cv
    signalToNoiseRatios := st.signalToNoiseRatios.map cv }

/-! ### Construction errors

`Scheduler.__init__` contains no validation of its arguments: it stores
them and immediately builds the arrays.  The only ways construction can
raise are the array routines themselves: `torch.linspace(..., steps=T)`
raises for `T < 0`, and `np.linspace(0, T - 1, N + 1)` (reached last, via
`_generate_timesteps`) raises for `N + 1 < 0`.  No rate ordering is ever
checked. -/

/-- The error, if any, raised by `DPMSolver(num_inference_steps=N,
num_train_timesteps=T, initial_diffusion_rate=b0, final_diffusion_rate=b1)`.
No code path validates the arguments; the array routines themselves can
raise: for a strictly negative rate, Python's `rate ** 0.5` evaluates to a
complex number, which `torch.linspace` with the float `dtype` rejects;
`torch.linspace` raises for a negative `steps = T`; and (last, at the end
of `__init__`) `np.linspace` over `N + 1` samples raises for `N + 1 < 0`.
The rate ordering is never examined.  When several conditions are violated
at once an error is raised either way; the model fixes one order among
`torch.linspace`'s own checks and does not model message identity. -/
noncomputable def dpmSolverInitError (N T : ℤ) (b0 b1 : ℝ) : Option String :=
  if b0 < 0 ∨ b1 < 0 then some "complex value rejected by linspace with a float dtype"
  else if T < 0 then some "number of steps must be non-negative"
  else if N + 1 < 0 then some "Number of samples must be non-negative"
  else none

/-! ## Helper lemmas -/

theorem generateTimesteps_length (T N : ℕ) : (generateTimesteps T N).length = N := by
  simp [generateTimesteps]

theorem pyIndex_isSome_iff (l : List ℤ) (i : ℤ) :
    (pyIndex l i).isSome ↔ -(l.length : ℤ) ≤ i ∧ i < (l.length : ℤ) := by
  unfold pyIndex
  split_ifs with h1 h2 <;> simp <;> omega

theorem pyIndex_of_nonneg (l : List ℤ) (i : ℤ) (h0 : 0 ≤ i) (h1 : i < (l.length : ℤ)) :
    pyIndex l i = some (l.getD i.toNat 0) := by
  unfold pyIndex
  rw [if_pos ⟨h0, h1⟩]

theorem pyIndex_of_neg (l : List ℤ) (i : ℤ) (h0 : -(l.length : ℤ) ≤ i) (h1 : i < 0) :
    pyIndex l i = some (l.getD ((l.length : ℤ) + i).toNat 0) := by
  unfold pyIndex
  rw [if_neg (by omega), if_pos ⟨h0, h1⟩]

theorem tsGet_of_inRange (T N : ℕ) (i : ℤ) (h0 : 0 ≤ i) (h1 : i < (N : ℤ)) :
    tsGet T N i = timestepAt T N i.toNat := by
  unfold tsGet timestepAt
  rw [pyIndex_of_nonneg _ _ h0 (by rw [generateTimesteps_length]; exact h1)]
  rfl

theorem isSomeMap {α β : Type} (f : α → β) (o : Option α) :
    (o.map f).isSome = o.isSome := by
  cases o <;> rfl

/-! ## C8 -/

/-- C8: `Scheduler.to` called with a dtype only (no device) leaves the
integer timestep values exactly unchanged, and each schedule array becomes
the elementwise precision-conversion of its stored values — a function of
the stored arrays alone, nothing is recomputed from the hyperparameters. -/
theorem to_dtype_only_rounds_stored_values (conv : DType → ℝ → ℝ)
    (st : SchedulerTensors) (dt : DType) :
    (schedulerTo conv st none (some dt)).timesteps = st.timesteps ∧
    (schedulerTo conv st none (some dt)).scaleFactors = st.scaleFactors.map (conv dt) ∧
    (schedulerTo conv st none (some dt)).cumulativeScaleFactors
      = st.cumulativeScaleFactors.map (conv dt) ∧
    (schedulerTo conv st none (some dt)).noiseStd = st.noiseStd.map (conv dt) ∧
    (schedulerTo conv st none (some dt)).signalToNoiseRatios
      = st.signalToNoiseRatios.map (conv dt) :=
  ⟨rfl, rfl, rfl, rfl, rfl⟩

/-! ## C2 -/

/-- C2 fails on the code: constructing a `DPMSolver` with the non-positive
`num_inference_steps = 0` and the rate ordering violated
(`initial_diffusion_rate = 1/2 > 1/8 = final_diffusion_rate`) raises
nothing — `Scheduler.__init__` contains no validation. -/
theorem dpmSolverInit_no_error_on_invalid_args :
    dpmSolverInitError 0 1000 (1 / 2) (1 / 8) = none := by
  unfold dpmSolverInitError
  rw [if_neg (by norm_num), if_neg (by norm_num), if_neg (by norm_num)]

/-- C2 (amended): construction never performs a configuration check — it
succeeds exactly when the array routines themselves accept the arguments:
both rates nonnegative (a strictly negative rate turns `rate ** 0.5`
complex, which `torch.linspace` with a float dtype rejects),
`num_train_timesteps ≥ 0` (`torch.linspace`), and `num_inference_steps ≥ -1`
(`np.linspace` over `N + 1` samples).  In particular an inverted rate
ordering and a non-positive `num_inference_steps` raise nothing. -/
theorem dpmSolverInit_error_iff (N T : ℤ) (b0 b1 : ℝ) :
    dpmSolverInitError N T b0 b1 = none ↔ 0 ≤ b0 ∧ 0 ≤ b1 ∧ 0 ≤ T ∧ -1 ≤ N := by
  unfold dpmSolverInitError
  split_ifs with h1 h2 h3
  · constructor
    · intro hcon
      exact absurd hcon (by simp)
    · rintro ⟨hb0, hb1, -, -⟩
      rcases h1 with h | h
      · exact absurd h (not_lt.mpr hb0)
      · exact absurd h (not_lt.mpr hb1)
  · constructor
    · intro hcon
      exact absurd hcon (by simp)
    · rintro ⟨-, -, hT, -⟩
      exact absurd hT (by omega)
  · constructor
    · intro hcon
      exact absurd hcon (by simp)
    · rintro ⟨-, -, -, hN⟩
      exact absurd hN (by omega)
  · push_neg at h1
    exact ⟨fun _ => ⟨h1.1, h1.2, by omega, by omega⟩, fun _ => rfl⟩

/-! ## C1 -/

/-- C1 fails on the code at the standard configuration
(`num_train_timesteps = 1000`, `num_inference_steps = 30`): at the final
step `s = 29`, the second-order update's previous timestep is the literal
`tensor([0])`, not `timesteps[0] = 999`. -/
theorem secondOrderPrev_final_step_ne_timesteps_zero :
    secondOrderPrevTimestep 1000 30 29 = 0 ∧ tsGet 1000 30 0 = 999 ∧
      secondOrderPrevTimestep 1000 30 29 ≠ tsGet 1000 30 0 := by
  decide

/-- C1 (amended): in the second-order multistep update at step `s`, the
previous timestep is `timesteps[s+1]` when `s + 1 < num_inference_steps`,
and on the final step it is the constant timestep value `0` (the code's
`tensor([0])`) — not the first entry `timesteps[0]`.  The `prev`
coefficients of the update are all taken at `secondOrderPrevTimestep`. -/
theorem secondOrderPrev_edge_policy (T N : ℕ) (s : ℤ)
    (h0 : 0 ≤ s) (hN : s < (N : ℤ)) :
    (s + 1 < (N : ℤ) → secondOrderPrevTimestep T N s = tsGet T N (s + 1)) ∧
    (s + 1 = (N : ℤ) → secondOrderPrevTimestep T N s = 0) := by
  unfold secondOrderPrevTimestep
  rw [generateTimesteps_length]
  constructor
  · intro h
    rw [if_pos (by omega)]
  · intro h
    rw [if_neg (by omega)]

/-- Witness: the C1 edge policy instantiated at the standard configuration,
final step. -/
theorem secondOrderPrev_edge_policy_final :
    secondOrderPrevTimestep 1000 30 29 = 0 :=
  (secondOrderPrev_edge_policy 1000 30 29 (by decide) (by decide)).2 (by decide)

/-! ## C3 -/

/-- C3 fails on the code: `add_noise` at the out-of-range step `-1` raises
no index error — it silently selects `timesteps[-1]`, the last entry, and
returns exactly what step `29` returns. -/
theorem addNoise_negative_step_wraps :
    (addNoise 0 0 1000 30 [1] [0] (-1)).isSome = true ∧
      addNoise 0 0 1000 30 [1] [0] (-1) = addNoise 0 0 1000 30 [1] [0] 29 :=
  ⟨rfl, rfl⟩

/-- C3 (amended): `add_noise` raises an index error exactly for
`step < -N` or `step ≥ N`, and a negative step in `[-N, 0)` silently wraps
around, selecting from the end of the timestep sequence Python-style and
behaving like `step + N`.  The solver's step operation raises exactly for
`step < -N` or `step ≥ N` when its counter is `0` (a first call), and
exactly for `step ≤ -N` or `step ≥ N` on every later call, where the
second-order branch additionally reads `timesteps[step - 1]`; no clamping
occurs anywhere. -/
theorem addNoise_index_policy (b0 b1 : ℝ) (T N : ℕ) (x noise : List ℝ) (step : ℤ) :
    ((addNoise b0 b1 T N x noise step).isSome ↔ -(N : ℤ) ≤ step ∧ step < (N : ℤ)) ∧
    (-(N : ℤ) ≤ step → step < 0 →
      addNoise b0 b1 T N x noise step = addNoise b0 b1 T N x noise (step + (N : ℤ))) ∧
    (∀ st : DPMState, (dpmSolverCall b0 b1 T N st x noise step).isSome ↔
      ((st.initialSteps = 0 ∧ -(N : ℤ) ≤ step ∧ step < (N : ℤ)) ∨
        (st.initialSteps ≠ 0 ∧ -(N : ℤ) + 1 ≤ step ∧ step < (N : ℤ)))) := by
  have hlen : ((generateTimesteps T N).length : ℤ) = (N : ℤ) := by
    rw [generateTimesteps_length]
  refine ⟨?_, ?_, ?_⟩
  · unfold addNoise
    rw [isSomeMap, pyIndex_isSome_iff, hlen]
  · intro h1 h2
    unfold addNoise
    rw [pyIndex_of_neg _ _ (by rw [hlen]; exact h1) h2,
      pyIndex_of_nonneg _ _ (by omega) (by rw [hlen]; omega)]
    rw [hlen, Int.add_comm]
  · intro st
    unfold dpmSolverCall
    rcases ho : pyIndex (generateTimesteps T N) step with _ | t
    · have h := pyIndex_isSome_iff (generateTimesteps T N) step
      rw [ho, hlen] at h
      have hnb : ¬(-(N : ℤ) ≤ step ∧ step < (N : ℤ)) := fun hb =>
        Bool.noConfusion (h.mpr hb)
      refine ⟨fun hc => Bool.noConfusion hc, fun hr => ?_⟩
      rcases hr with ⟨-, hb⟩ | ⟨-, hb1, hb2⟩
      · exact absurd hb hnb
      · exact absurd ⟨by omega, hb2⟩ hnb
    · have h := pyIndex_isSome_iff (generateTimesteps T N) step
      rw [ho, hlen] at h
      have hb : -(N : ℤ) ≤ step ∧ step < (N : ℤ) := h.mp rfl
      dsimp only [Option.bind]
      by_cases hs0 : st.initialSteps = 0
      · rw [if_pos hs0]
        exact ⟨fun _ => Or.inl ⟨hs0, hb⟩, fun _ => rfl⟩
      · rw [if_neg hs0]
        rw [isSomeMap]
        unfold multistepDpmSolverSecondOrderUpdate
        rw [isSomeMap]
        rw [pyIndex_isSome_iff, hlen]
        constructor
        · intro hbnd
          exact Or.inr ⟨hs0, by omega, hb.2⟩
        · intro hr
          rcases hr with ⟨hc, -⟩ | ⟨-, hb1, hb2⟩
          · exact absurd hc hs0
          · exact ⟨by omega, by omega⟩

/-- Witness: the wraparound equality of the amended C3 at a concrete
negative step. -/
theorem addNoise_index_policy_concrete :
    addNoise 0 0 1000 30 [1] [0] (-3) = addNoise 0 0 1000 30 [1] [0] (-3 + (30 : ℤ)) :=
  (addNoise_index_policy 0 0 1000 30 [1] [0] (-3)).2.1 (by decide) (by decide)

/-! ## C7 -/

/-- C7: for same-shape `x` and `noise` and a valid step, `add_noise`
returns `cumulative_scale_factors[timesteps[step]] * x +
noise_std[timesteps[step]] * noise` elementwise (the two scalar
coefficients broadcast over every element), and the result has the same
shape as `x`.  The embedding of `add_noise` is a pure function of the
schedule — the method only reads scheduler attributes, mutating nothing. -/
theorem addNoise_scaled_sum (b0 b1 : ℝ) (T N : ℕ) (x noise : List ℝ) (step : ℕ)
    (hs : step < N) (hsh : noise.length = x.length) :
    addNoise b0 b1 T N x noise (step : ℤ) =
      some (List.zipWith (fun a b =>
          cumulativeScaleFactors b0 b1 T (timestepAt T N step).toNat * a +
          noiseStd b0 b1 T (timestepAt T N step).toNat * b) x noise) ∧
    (List.zipWith (fun a b =>
          cumulativeScaleFactors b0 b1 T (timestepAt T N step).toNat * a +
          noiseStd b0 b1 T (timestepAt T N step).toNat * b) x noise).length = x.length := by
  constructor
  · unfold addNoise
    rw [pyIndex_of_nonneg _ _ (by omega)
      (by rw [generateTimesteps_length]; exact_mod_cast hs)]
    simp [timestepAt]
  · rw [List.length_zipWith]
    omega

/-- Witness: C7 instantiated at `T = 10`, `N = 3`, step `1`,
`x = [1, 2]`, `noise = [3, 4]`. -/
theorem addNoise_scaled_sum_concrete :
    (List.zipWith (fun a b =>
        cumulativeScaleFactors 0 0 10 (timestepAt 10 3 1).toNat * a +
        noiseStd 0 0 10 (timestepAt 10 3 1).toNat * b)
      ([1, 2] : List ℝ) ([3, 4] : List ℝ)).length = 2 :=
  (addNoise_scaled_sum 0 0 10 3 [1, 2] [3, 4] 1 (by decide) rfl).2

/-! ## C5 -/

/-- C5: the first call on a fresh solver returns the first-order update
applied to `data_estimate = (x - noise_std[t] * noise) /
cumulative_scale_factors[t]`: with `prev = timesteps[s+1]` if `s + 1 < N`
else `timesteps[0]`, the result is `(noise_std[prev] / noise_std[cur]) * x -
cumulative_scale_factors[prev] * (exp(-(snr[prev] - snr[cur])) - 1) *
data_estimate`. -/
theorem first_call_is_first_order (b0 b1 : ℝ) (T N : ℕ) (x noise : List ℝ) (step : ℤ)
    (h0 : 0 ≤ step) (hN : step < (N : ℤ)) :
    (dpmSolverCall b0 b1 T N freshDPM x noise step).map Prod.fst =
      some (vsub
        (vscale
          (noiseStd b0 b1 T (tsGet T N (if step + 1 < (N : ℤ) then step + 1 else 0)).toNat /
            noiseStd b0 b1 T (tsGet T N step).toNat) x)
        (vscale
          (cumulativeScaleFactors b0 b1 T
              (tsGet T N (if step + 1 < (N : ℤ) then step + 1 else 0)).toNat *
            (Real.exp
              (-(signalToNoiseRatios b0 b1 T
                    (tsGet T N (if step + 1 < (N : ℤ) then step + 1 else 0)).toNat -
                  signalToNoiseRatios b0 b1 T (tsGet T N step).toNat)) - 1))
          (dataEstimate b0 b1 T N x noise step))) := by
  have hlen : ((generateTimesteps T N).length : ℤ) = (N : ℤ) := by
    rw [generateTimesteps_length]
  have hson := pyIndex_of_nonneg (generateTimesteps T N) step h0 (by rw [hlen]; exact hN)
  have htg : tsGet T N step = (generateTimesteps T N).getD step.toNat 0 := by
    unfold tsGet
    rw [hson]
    rfl
  have hcond : (step < ((generateTimesteps T N).length : ℤ) - 1) = (step + 1 < (N : ℤ)) := by
    rw [hlen]
    exact propext ⟨fun h => by omega, fun h => by omega⟩
  unfold dpmSolverCall dpmSolverFirstOrderUpdate dataEstimate
  rw [hson]
  dsimp only [Option.bind, Option.map]
  simp only [hcond]
  rw [← htg]
  rfl

/-- Witness: C5 at `T = 10`, `N = 3`, final step `2`, `x = [1]`,
`noise = [0]`. -/
theorem first_call_is_first_order_concrete :
    (dpmSolverCall 0 0 10 3 freshDPM [1] [0] 2).map Prod.fst =
      some (vsub
        (vscale
          (noiseStd 0 0 10 (tsGet 10 3 (if (2 : ℤ) + 1 < ((3 : ℕ) : ℤ) then 2 + 1 else 0)).toNat /
            noiseStd 0 0 10 (tsGet 10 3 2).toNat) [1])
        (vscale
          (cumulativeScaleFactors 0 0 10
              (tsGet 10 3 (if (2 : ℤ) + 1 < ((3 : ℕ) : ℤ) then 2 + 1 else 0)).toNat *
            (Real.exp
              (-(signalToNoiseRatios 0 0 10
                    (tsGet 10 3 (if (2 : ℤ) + 1 < ((3 : ℕ) : ℤ) then 2 + 1 else 0)).toNat -
                  signalToNoiseRatios 0 0 10 (tsGet 10 3 2).toNat)) - 1))
          (dataEstimate 0 0 10 3 [1] [0] 2))) :=
  first_call_is_first_order 0 0 10 3 [1] [0] 2 (by decide) (by decide)

/-! ## Solver state evolution -/

/-- A call with a valid (in-range, nonnegative) step always succeeds: it
appends the data estimate to the history deque and bumps the saturating
counter, whichever update branch runs. -/
theorem dpmSolverCall_state (b0 b1 : ℝ) (T N : ℕ) (st : DPMState) (x noise : List ℝ)
    (step : ℤ) (h0 : 0 ≤ step) (hN : step < (N : ℤ)) :
    ∃ out, dpmSolverCall b0 b1 T N st x noise step =
      some (out,
        ⟨dequeAppend st.estimatedData (dataEstimate b0 b1 T N x noise step),
          if st.initialSteps < 2 then st.initialSteps + 1 else st.initialSteps⟩) := by
  have hlen : ((generateTimesteps T N).length : ℤ) = (N : ℤ) := by
    rw [generateTimesteps_length]
  have hson := pyIndex_of_nonneg (generateTimesteps T N) step h0 (by rw [hlen]; exact hN)
  have htg : tsGet T N step = (generateTimesteps T N).getD step.toNat 0 := by
    unfold tsGet
    rw [hson]
    rfl
  have hest : vdivs
      (vsub x (vscale (noiseStd b0 b1 T ((generateTimesteps T N).getD step.toNat 0).toNat) noise))
      (cumulativeScaleFactors b0 b1 T ((generateTimesteps T N).getD step.toNat 0).toNat) =
      dataEstimate b0 b1 T N x noise step := by
    unfold dataEstimate
    rw [htg]
  unfold dpmSolverCall
  rw [hson]
  dsimp only [Option.bind]
  by_cases hc : st.initialSteps = 0
  · rw [if_pos hc, hest]
    exact ⟨_, rfl⟩
  · rw [if_neg hc]
    have hnt : -((generateTimesteps T N).length : ℤ) ≤ step - 1 ∧
        step - 1 < ((generateTimesteps T N).length : ℤ) := by
      rw [hlen]
      omega
    rcases hq : pyIndex (generateTimesteps T N) (step - 1) with _ | nt
    · have h := pyIndex_isSome_iff (generateTimesteps T N) (step - 1)
      rw [hq] at h
      exact absurd (h.mpr hnt) (fun hcon => Bool.noConfusion hcon)
    · unfold multistepDpmSolverSecondOrderUpdate
      rw [hq]
      dsimp only [Option.map]
      rw [hest]
      exact ⟨_, rfl⟩

/-- The saturating counter after a run of valid calls: it grows by one per
call until it reaches 2. -/
theorem runCalls_initialSteps (b0 b1 : ℝ) (T N : ℕ) (calls : List SolverCall)
    (hv : ∀ c ∈ calls, 0 ≤ c.step ∧ c.step < (N : ℤ)) (st : DPMState)
    (h2 : st.initialSteps ≤ 2) :
    (runCalls b0 b1 T N st calls).initialSteps = min (st.initialSteps + calls.length) 2 := by
  revert hv h2
  induction calls generalizing st with
  | nil =>
    intro hv h2
    simp only [runCalls, List.length_nil, Nat.add_zero]
    omega
  | cons c rest ih =>
    intro hv h2
    obtain ⟨hc0, hcN⟩ := hv c (List.mem_cons_self c rest)
    obtain ⟨out, heq⟩ := dpmSolverCall_state b0 b1 T N st c.x c.noise c.step hc0 hcN
    simp only [runCalls, heq]
    rw [ih _ (fun d hd => hv d (List.mem_cons_of_mem c hd))
      (by dsimp only; split_ifs <;> omega)]
    dsimp only
    simp only [List.length_cons]
    split_ifs <;> omega

/-! ## C6 -/

/-- C6: the saturating counter `initial_steps`, starting at 0, increments
by one on every valid step call and saturates at 2 (after `n` calls it
equals `min n 2`), and the update-branch decision — the code tests only
`initial_steps == 0` — selects the first-order branch exactly on the very
first call, regardless of the step arguments used. -/
theorem initialSteps_saturates (b0 b1 : ℝ) (T N : ℕ) (calls : List SolverCall) (n : ℕ)
    (hv : ∀ c ∈ calls, 0 ≤ c.step ∧ c.step < (N : ℤ)) (hn : n ≤ calls.length) :
    (runCalls b0 b1 T N freshDPM (calls.take n)).initialSteps = min n 2 ∧
    ((runCalls b0 b1 T N freshDPM (calls.take n)).initialSteps = 0 ↔ n = 0) := by
  have h := runCalls_initialSteps b0 b1 T N (calls.take n)
    (fun c hc => hv c (List.take_subset n calls hc)) freshDPM (Nat.zero_le 2)
  rw [h]
  have hfresh : freshDPM.initialSteps = 0 := rfl
  rw [hfresh, List.length_take]
  constructor
  · omega
  · omega

/-- Witness: C6 on a concrete two-call run, first prefix. -/
theorem initialSteps_saturates_concrete :
    (runCalls 0 0 10 3 freshDPM
        (([⟨[1], [0], 0⟩, ⟨[1], [0], 1⟩] : List SolverCall).take 1)).initialSteps = min 1 2 ∧
    ((runCalls 0 0 10 3 freshDPM
        (([⟨[1], [0], 0⟩, ⟨[1], [0], 1⟩] : List SolverCall).take 1)).initialSteps = 0 ↔
      1 = 0) :=
  initialSteps_saturates 0 0 10 3 [⟨[1], [0], 0⟩, ⟨[1], [0], 1⟩] 1
    (by
      intro c hc
      rcases hc with _ | ⟨_, hc⟩
      · exact ⟨by decide, by decide⟩
      · rcases hc with _ | ⟨_, hc⟩
        · exact ⟨by decide, by decide⟩
        · cases hc)
    (by decide)

/-! ## C10 -/

/-- The data estimate appended to the history deque by one call. -/
noncomputable def callEstimate (b0 b1 : ℝ) (T N : ℕ) (c : SolverCall) : List ℝ :=
  dataEstimate b0 b1 T N c.x c.noise c.step

/-- Dropping all but the last two entries of a list of length `m + 2`. -/
theorem dropPenultimate {α : Type} (l : List α) (d : α) (m : ℕ) (h : l.length = m + 2) :
    l.drop m = [l.getD m d, l.getD (m + 1) d] := by
  induction l generalizing m with
  | nil => simp at h
  | cons x xs ih =>
    cases m with
    | zero =>
      cases xs with
      | nil => simp at h
      | cons y ys =>
        cases ys with
        | nil => rfl
        | cons z zs =>
          simp only [List.length_cons] at h
          omega
    | succ m2 =>
      rw [List.drop_succ_cons]
      rw [ih m2 (by simp only [List.length_cons] at h; omega)]
      rfl

/-- The `getD` of a mapped list commutes with `map` at a default of the form `f c`. -/
theorem getD_map {α β : Type} (f : α → β) (l : List α) (i : ℕ) (c : α) :
    (l.map f).getD i (f c) = f (l.getD i c) := by
  induction l generalizing i with
  | nil => cases i <;> rfl
  | cons x xs ih =>
    cases i with
    | zero => rfl
    | succ j => exact ih j

/-- The `getD` of a `take` prefix agrees with `getD` of the list inside the
prefix. -/
theorem getD_take {α : Type} (l : List α) (k i : ℕ) (c : α) (h : i < k) :
    (l.take k).getD i c = l.getD i c := by
  induction l generalizing k i with
  | nil => cases k <;> rfl
  | cons x xs ih =>
    cases k with
    | zero => omega
    | succ k2 =>
      cases i with
      | zero => rfl
      | succ i2 => exact ih k2 i2 (by omega)

/-- The history deque after a run of valid calls from a two-slot state: it
holds the last two entries of the initial contents followed by the
appended data estimates. -/
theorem runCalls_estimatedData (b0 b1 : ℝ) (T N : ℕ) (cs : List SolverCall)
    (hv : ∀ c ∈ cs, 0 ≤ c.step ∧ c.step < (N : ℤ)) (a b : List ℝ) (k : ℕ) :
    (runCalls b0 b1 T N ⟨[a, b], k⟩ cs).estimatedData =
      ([a, b] ++ cs.map (callEstimate b0 b1 T N)).drop cs.length := by
  revert hv
  induction cs generalizing a b k with
  | nil =>
    intro hv
    rfl
  | cons c rest ih =>
    intro hv
    obtain ⟨hc0, hcN⟩ := hv c (List.mem_cons_self c rest)
    obtain ⟨out, heq⟩ := dpmSolverCall_state b0 b1 T N ⟨[a, b], k⟩ c.x c.noise c.step hc0 hcN
    simp only [runCalls, heq]
    have hda : dequeAppend [a, b] (dataEstimate b0 b1 T N c.x c.noise c.step) =
        [b, callEstimate b0 b1 T N c] := rfl
    rw [hda]
    rw [ih b (callEstimate b0 b1 T N c) _ (fun d hd => hv d (List.mem_cons_of_mem c hd))]
    simp only [List.map_cons, List.length_cons, List.cons_append, List.nil_append]
    rw [List.drop_succ_cons]

/-- C10: the history deque holds exactly two entries at every moment — it
is created holding two empty placeholder tensors, and each valid call
appends the new data estimate while evicting the oldest entry; after the
`(n+1)`-st call (`n ≥ 1`, the only calls that run the second-order update,
which reads the deque at `[-1]` and `[-2]`) the deque consists of the data
estimates of calls `n-1` and `n` — the placeholders are no longer present,
so they are never read by any update formula. -/
theorem estimatedData_two_slots (b0 b1 : ℝ) (T N : ℕ) (calls : List SolverCall)
    (hv : ∀ c ∈ calls, 0 ≤ c.step ∧ c.step < (N : ℤ)) (n : ℕ)
    (h1 : 1 ≤ n) (h2 : n < calls.length) :
    freshDPM.estimatedData = [[], []] ∧
    (∀ m : ℕ, (runCalls b0 b1 T N freshDPM (calls.take m)).estimatedData.length = 2) ∧
    (runCalls b0 b1 T N freshDPM (calls.take (n + 1))).estimatedData =
      [callEstimate b0 b1 T N (calls.getD (n - 1) ⟨[], [], 0⟩),
        callEstimate b0 b1 T N (calls.getD n ⟨[], [], 0⟩)] := by
  have hgen : ∀ m : ℕ, (runCalls b0 b1 T N freshDPM (calls.take m)).estimatedData =
      ([[], []] ++ (calls.take m).map (callEstimate b0 b1 T N)).drop (calls.take m).length :=
    fun m => runCalls_estimatedData b0 b1 T N (calls.take m)
      (fun c hc => hv c (List.take_subset m calls hc)) [] [] 0
  refine ⟨rfl, ?_, ?_⟩
  · intro m
    rw [hgen m]
    simp only [List.length_drop, List.length_append, List.length_map, List.length_take,
      List.length_cons, List.length_nil]
    omega
  · obtain ⟨m, rfl⟩ : ∃ m, n = m + 1 := ⟨n - 1, by omega⟩
    rw [hgen (m + 1 + 1)]
    have hlt : (calls.take (m + 1 + 1)).length = m + 1 + 1 := by
      rw [List.length_take]
      omega
    rw [hlt]
    have hmap : ((calls.take (m + 1 + 1)).map (callEstimate b0 b1 T N)).length = m + 2 := by
      rw [List.length_map, hlt]
    rw [show ([([] : List ℝ), []] ++
        (calls.take (m + 1 + 1)).map (callEstimate b0 b1 T N)) =
        [] :: [] :: (calls.take (m + 1 + 1)).map (callEstimate b0 b1 T N) from rfl]
    rw [show m + 1 + 1 = (m + 1) + 1 from rfl, List.drop_succ_cons, List.drop_succ_cons]
    rw [dropPenultimate _ (callEstimate b0 b1 T N ⟨[], [], 0⟩) m hmap]
    rw [getD_map, getD_map, getD_take _ _ _ _ (by omega), getD_take _ _ _ _ (by omega)]
    rw [show m + 1 - 1 = m from rfl]

/-- Witness: C10 on a concrete three-call run, `n = 1`. -/
theorem estimatedData_two_slots_concrete :
    freshDPM.estimatedData = [[], []] ∧
    (∀ m : ℕ, (runCalls 0 0 10 3 freshDPM
        (([⟨[1], [0], 0⟩, ⟨[1], [0], 1⟩, ⟨[1], [0], 2⟩] : List SolverCall).take m)).estimatedData.length
        = 2) ∧
    (runCalls 0 0 10 3 freshDPM
        (([⟨[1], [0], 0⟩, ⟨[1], [0], 1⟩, ⟨[1], [0], 2⟩] : List SolverCall).take (1 + 1))).estimatedData =
      [callEstimate 0 0 10 3
          (([⟨[1], [0], 0⟩, ⟨[1], [0], 1⟩, ⟨[1], [0], 2⟩] : List SolverCall).getD (1 - 1) ⟨[], [], 0⟩),
        callEstimate 0 0 10 3
          (([⟨[1], [0], 0⟩, ⟨[1], [0], 1⟩, ⟨[1], [0], 2⟩] : List SolverCall).getD 1 ⟨[], [], 0⟩)] :=
  estimatedData_two_slots 0 0 10 3 [⟨[1], [0], 0⟩, ⟨[1], [0], 1⟩, ⟨[1], [0], 2⟩]
    (by
      intro c hc
      rcases hc with _ | ⟨_, hc⟩
      · exact ⟨by decide, by decide⟩
      · rcases hc with _ | ⟨_, hc⟩
        · exact ⟨by decide, by decide⟩
        · rcases hc with _ | ⟨_, hc⟩
          · exact ⟨by decide, by decide⟩
          · cases hc)
    1 (by decide) (by decide)

/-! ## Rounding lemmas for the timestep sequence -/

/-- Round-half-even stays within half a unit of the exact fraction:
`2a - b ≤ 2b⋅round(a/b) ≤ 2a + b`. -/
theorem roundHalfEvenFrac_bounds (a b : ℤ) (hb : 0 < b) :
    2 * a - b ≤ 2 * b * roundHalfEvenFrac a b ∧
      2 * b * roundHalfEvenFrac a b ≤ 2 * a + b := by
  have h1 : 0 ≤ a % b := Int.emod_nonneg a (ne_of_gt hb)
  have h2 : a % b < b := Int.emod_lt_of_pos a hb
  have h3 : b * (a / b) + a % b = a := Int.ediv_add_emod a b
  unfold roundHalfEvenFrac
  dsimp only
  split_ifs with hlt hgt hev <;> constructor <;> nlinarith [h1, h2, h3]

/-- Round-half-even is strictly monotone across a gap of more than one
whole unit of the denominator. -/
theorem roundHalfEvenFrac_strict (a a2 b : ℤ) (hb : 0 < b) (h : a + b < a2) :
    roundHalfEvenFrac a b < roundHalfEvenFrac a2 b := by
  obtain ⟨l1, r1⟩ := roundHalfEvenFrac_bounds a b hb
  obtain ⟨l2, r2⟩ := roundHalfEvenFrac_bounds a2 b hb
  have hmul : 2 * b * roundHalfEvenFrac a b < 2 * b * roundHalfEvenFrac a2 b := by
    omega
  exact lt_of_mul_lt_mul_left hmul (by omega)

/-- Round-half-even of an exact multiple. -/
theorem roundHalfEvenFrac_exact (k b : ℤ) (hb : 0 < b) :
    roundHalfEvenFrac (k * b) b = k := by
  have hq : k * b / b = k := Int.mul_ediv_cancel k (ne_of_gt hb)
  have hr : k * b % b = 0 := Int.mul_emod_left k b
  unfold roundHalfEvenFrac
  dsimp only
  rw [hq, hr]
  rw [if_pos (by omega)]

/-- Consecutive rounded linspace points strictly increase whenever the
spacing `(T - 1) / N` is at least one, i.e. `N + 1 ≤ T`. -/
theorem linspaceRoundAt_lt_succ (T N : ℕ) (hN : 1 ≤ N) (hTN : N + 1 ≤ T) (i : ℕ) :
    linspaceRoundAt T N i < linspaceRoundAt T N (i + 1) := by
  unfold linspaceRoundAt
  rw [if_neg (by omega), if_neg (by omega)]
  have hbpos : (0 : ℤ) < (N : ℤ) := by exact_mod_cast hN
  have hT1 : (N : ℤ) ≤ (T : ℤ) - 1 := by
    have : (N : ℤ) + 1 ≤ (T : ℤ) := by exact_mod_cast hTN
    omega
  rcases eq_or_lt_of_le hT1 with heq | hlt
  · rw [← heq, roundHalfEvenFrac_exact _ _ hbpos, roundHalfEvenFrac_exact _ _ hbpos]
    omega
  · apply roundHalfEvenFrac_strict _ _ _ hbpos
    have hexp : ((i : ℤ) + 1) * ((T : ℤ) - 1) = (i : ℤ) * ((T : ℤ) - 1) + ((T : ℤ) - 1) := by
      ring
    push_cast
    rw [hexp]
    have hi0 : (0 : ℤ) ≤ (i : ℤ) := Int.natCast_nonneg i
    linarith

/-- Strict descent of the generated timestep sequence when the spacing is
at least one. -/
theorem generateTimesteps_chain (T N : ℕ) (hTN : N + 1 ≤ T) :
    List.Chain' (fun x y => y < x) (generateTimesteps T N) := by
  rcases Nat.eq_zero_or_pos N with h0 | hpos
  · subst h0
    rw [show generateTimesteps T 0 = [] from rfl]
    exact List.chain'_nil
  · have hc : List.Chain' (fun x y => x < y)
        ((List.range (N + 1)).map (linspaceRoundAt T N)) := by
      rw [List.chain'_map]
      rw [List.chain'_range_succ]
      intro m _
      exact linspaceRoundAt_lt_succ T N hpos hTN m
    have hdrop : List.Chain' (fun x y => x < y)
        (((List.range (N + 1)).map (linspaceRoundAt T N)).drop 1) := by
      rw [List.drop_one]
      exact hc.tail
    unfold generateTimesteps
    rw [List.chain'_reverse]
    exact hdrop

/-! ## C4 -/

/-- C4 fails as stated in full generality: with `num_train_timesteps = 2`
and `num_inference_steps = 5`, the spacing is below one and the generated
sequence is `[1, 1, 1, 0, 0]` — it has the right length but is not
strictly descending. -/
theorem generateTimesteps_not_strictly_descending :
    generateTimesteps 2 5 = [1, 1, 1, 0, 0] ∧
      ¬ List.Chain' (fun x y : ℤ => y < x) (generateTimesteps 2 5) := by
  constructor
  · decide
  · intro h
    rw [show generateTimesteps 2 5 = [1, 1, 1, 0, 0] from by decide] at h
    obtain ⟨h1, -⟩ := List.chain'_cons.mp h
    exact absurd h1 (by decide)

/-- C4 (amended): the generated sequence — `num_inference_steps + 1` evenly
spaced points over `[0, num_train_timesteps - 1]`, rounded to nearest,
first value discarded, reversed — always has exactly
`num_inference_steps` entries; it is strictly descending whenever
`num_inference_steps + 1 ≤ num_train_timesteps` (spacing at least one); and
at `num_train_timesteps = 1000`, `num_inference_steps = 30` its first
element is `999`. -/
theorem generateTimesteps_props :
    (∀ T N : ℕ, (generateTimesteps T N).length = N) ∧
    (∀ T N : ℕ, N + 1 ≤ T → List.Chain' (fun x y => y < x) (generateTimesteps T N)) ∧
    (generateTimesteps 1000 30).headD 0 = 999 :=
  ⟨generateTimesteps_length, fun T N h => generateTimesteps_chain T N h, by decide⟩

/-- Witness: the strict-descent part of amended C4 at the concrete
configuration `T = 10`, `N = 3`. -/
theorem generateTimesteps_props_concrete :
    List.Chain' (fun x y : ℤ => y < x) (generateTimesteps 10 3) :=
  generateTimesteps_props.2.1 10 3 (by decide)

/-! ## C9 -/

/-- The interpolated square-root diffusion rate lies between its endpoint
values for every in-range index. -/
theorem betaLin_bounds (b0 b1 : ℝ) (T t : ℕ) (hb01 : b0 ≤ b1) (ht : t < T) :
    Real.sqrt b0 ≤ betaLin b0 b1 T t ∧ betaLin b0 b1 T t ≤ Real.sqrt b1 := by
  have hs : Real.sqrt b0 ≤ Real.sqrt b1 := Real.sqrt_le_sqrt hb01
  unfold betaLin
  split_ifs with h
  · exact ⟨le_refl _, hs⟩
  · have hT2 : 2 ≤ T := by omega
    have hden : (0 : ℝ) < (T : ℝ) - 1 := by
      have h2 : (2 : ℝ) ≤ (T : ℝ) := by exact_mod_cast hT2
      linarith
    have htle : (t : ℝ) ≤ (T : ℝ) - 1 := by
      have hc : (t : ℝ) + 1 ≤ (T : ℝ) := by exact_mod_cast ht
      linarith
    have hd : 0 ≤ Real.sqrt b1 - Real.sqrt b0 := by linarith
    have hnn : 0 ≤ (t : ℝ) * (Real.sqrt b1 - Real.sqrt b0) / ((T : ℝ) - 1) :=
      div_nonneg (mul_nonneg (Nat.cast_nonneg t) hd) (le_of_lt hden)
    have hmul : (t : ℝ) * (Real.sqrt b1 - Real.sqrt b0) ≤
        ((T : ℝ) - 1) * (Real.sqrt b1 - Real.sqrt b0) :=
      mul_le_mul_of_nonneg_right htle hd
    have hle : (t : ℝ) * (Real.sqrt b1 - Real.sqrt b0) / ((T : ℝ) - 1) ≤
        Real.sqrt b1 - Real.sqrt b0 := by
      rw [div_le_iff₀ hden]
      linarith [hmul]
    exact ⟨by linarith, by linarith⟩

/-- Each per-timestep scale factor lies strictly inside `(0, 1)` for valid
rates. -/
theorem scaleFactors_mem (b0 b1 : ℝ) (T t : ℕ)
    (h0 : 0 < b0) (h01 : b0 < b1) (h1 : b1 < 1) (ht : t < T) :
    0 < scaleFactors b0 b1 T t ∧ scaleFactors b0 b1 T t < 1 := by
  obtain ⟨hl, hu⟩ := betaLin_bounds b0 b1 T t (le_of_lt h01) ht
  have hs0 : 0 < Real.sqrt b0 := Real.sqrt_pos.mpr h0
  have hs1 : Real.sqrt b1 < 1 := by
    rw [Real.sqrt_lt' one_pos]
    simpa using h1
  have hv0 : 0 < betaLin b0 b1 T t := lt_of_lt_of_le hs0 hl
  have hv1 : betaLin b0 b1 T t < 1 := lt_of_le_of_lt hu hs1
  unfold scaleFactors
  constructor
  · nlinarith
  · nlinarith

/-- Peeling the last factor of `cumprod`. -/
theorem scaleProd_succ (b0 b1 : ℝ) (T t : ℕ) :
    scaleProd b0 b1 T (t + 1) = scaleProd b0 b1 T t * scaleFactors b0 b1 T (t + 1) := by
  unfold scaleProd
  rw [Finset.prod_range_succ]

/-- The cumulative product of the scale factors lies strictly inside
`(0, 1)` for every in-range index. -/
theorem scaleProd_mem (b0 b1 : ℝ) (T : ℕ) (h0 : 0 < b0) (h01 : b0 < b1) (h1 : b1 < 1) :
    ∀ t, t < T → 0 < scaleProd b0 b1 T t ∧ scaleProd b0 b1 T t < 1 := by
  intro t
  induction t with
  | zero =>
    intro ht
    have h := scaleFactors_mem b0 b1 T 0 h0 h01 h1 ht
    unfold scaleProd
    rw [Finset.prod_range_one]
    exact h
  | succ t2 ih =>
    intro ht
    have hmem := scaleFactors_mem b0 b1 T (t2 + 1) h0 h01 h1 ht
    have hih := ih (by omega)
    rw [scaleProd_succ]
    constructor
    · exact mul_pos hih.1 hmem.1
    · nlinarith [hih.1, hih.2, hmem.1, hmem.2]

/-- The cumulative product strictly decreases along the timestep index. -/
theorem scaleProd_strictAnti (b0 b1 : ℝ) (T : ℕ) (h0 : 0 < b0) (h01 : b0 < b1) (h1 : b1 < 1)
    (t1 t2 : ℕ) (hlt : t1 < t2) (ht2 : t2 < T) :
    scaleProd b0 b1 T t2 < scaleProd b0 b1 T t1 := by
  induction t2 with
  | zero => omega
  | succ t3 ih =>
    have hmem := scaleFactors_mem b0 b1 T (t3 + 1) h0 h01 h1 ht2
    have hpos3 := scaleProd_mem b0 b1 T h0 h01 h1 t3 (by omega)
    have hstep : scaleProd b0 b1 T (t3 + 1) < scaleProd b0 b1 T t3 := by
      rw [scaleProd_succ]
      nlinarith [hpos3.1, hmem.1, hmem.2]
    rcases Nat.lt_succ_iff_lt_or_eq.mp hlt with hc | hc
    · exact lt_trans hstep (ih hc (by omega))
    · rw [hc]
      exact hstep

/-- C9: for valid rates `0 < b0 < b1 < 1`, the built arrays satisfy:
`cumulative_scale_factors` is strictly decreasing in `t` and lies in
`(0, 1)`, `noise_std` is strictly increasing in `t` and lies in `(0, 1)`,
and `signal_to_noise_ratios` is strictly decreasing in `t`, over the whole
index range `t < num_train_timesteps`. -/
theorem schedule_monotonic (b0 b1 : ℝ) (T : ℕ)
    (h0 : 0 < b0) (h01 : b0 < b1) (h1 : b1 < 1) :
    (∀ t, t < T →
      0 < cumulativeScaleFactors b0 b1 T t ∧ cumulativeScaleFactors b0 b1 T t < 1) ∧
    (∀ t, t < T → 0 < noiseStd b0 b1 T t ∧ noiseStd b0 b1 T t < 1) ∧
    (∀ t1 t2, t1 < t2 → t2 < T →
      cumulativeScaleFactors b0 b1 T t2 < cumulativeScaleFactors b0 b1 T t1) ∧
    (∀ t1 t2, t1 < t2 → t2 < T → noiseStd b0 b1 T t1 < noiseStd b0 b1 T t2) ∧
    (∀ t1 t2, t1 < t2 → t2 < T →
      signalToNoiseRatios b0 b1 T t2 < signalToNoiseRatios b0 b1 T t1) := by
  have hp := scaleProd_mem b0 b1 T h0 h01 h1
  have csf_mem : ∀ t, t < T →
      0 < cumulativeScaleFactors b0 b1 T t ∧ cumulativeScaleFactors b0 b1 T t < 1 := by
    intro t ht
    obtain ⟨hp0, hp1⟩ := hp t ht
    unfold cumulativeScaleFactors
    refine ⟨Real.sqrt_pos.mpr hp0, ?_⟩
    rw [Real.sqrt_lt' one_pos]
    simpa using hp1
  have nstd_mem : ∀ t, t < T → 0 < noiseStd b0 b1 T t ∧ noiseStd b0 b1 T t < 1 := by
    intro t ht
    obtain ⟨hp0, hp1⟩ := hp t ht
    unfold noiseStd
    refine ⟨Real.sqrt_pos.mpr (by linarith), ?_⟩
    rw [Real.sqrt_lt' one_pos]
    simp only [one_pow]
    linarith
  have csf_anti : ∀ t1 t2, t1 < t2 → t2 < T →
      cumulativeScaleFactors b0 b1 T t2 < cumulativeScaleFactors b0 b1 T t1 := by
    intro t1 t2 hlt ht2
    have hanti := scaleProd_strictAnti b0 b1 T h0 h01 h1 t1 t2 hlt ht2
    unfold cumulativeScaleFactors
    exact Real.sqrt_lt_sqrt (le_of_lt (hp t2 ht2).1) hanti
  have nstd_mono : ∀ t1 t2, t1 < t2 → t2 < T →
      noiseStd b0 b1 T t1 < noiseStd b0 b1 T t2 := by
    intro t1 t2 hlt ht2
    have hanti := scaleProd_strictAnti b0 b1 T h0 h01 h1 t1 t2 hlt ht2
    have hmem1 := hp t1 (by omega)
    unfold noiseStd
    apply Real.sqrt_lt_sqrt
    · linarith [hmem1.2]
    · linarith
  refine ⟨csf_mem, nstd_mem, csf_anti, nstd_mono, ?_⟩
  intro t1 t2 hlt ht2
  have ht1 : t1 < T := by omega
  have h1c := csf_mem t1 ht1
  have h2c := csf_mem t2 ht2
  have h1n := nstd_mem t1 ht1
  have hcs := csf_anti t1 t2 hlt ht2
  have hns := nstd_mono t1 t2 hlt ht2
  unfold signalToNoiseRatios
  have hl1 : Real.log (cumulativeScaleFactors b0 b1 T t2) <
      Real.log (cumulativeScaleFactors b0 b1 T t1) :=
    Real.log_lt_log h2c.1 hcs
  have hl2 : Real.log (noiseStd b0 b1 T t1) < Real.log (noiseStd b0 b1 T t2) :=
    Real.log_lt_log h1n.1 hns
  linarith

/-- Witness: C9 at concrete rates `1/4 < 1/2` with `T = 2`. -/
theorem schedule_monotonic_concrete :
    0 < cumulativeScaleFactors (1 / 4) (1 / 2) 2 1 ∧
      cumulativeScaleFactors (1 / 4) (1 / 2) 2 1 < 1 :=
  (schedule_monotonic (1 / 4) (1 / 2) 2 (by norm_num) (by norm_num) (by norm_num)).1 1
    (by norm_num)

end Refiners
